import Mathlib

/-!
Verification of the numerical engine of the AI Tipping Point Atlas
(`src/app.py`): bifurcation-data generation (`get_bifurcation_data`),
noisy logistic-map trajectory simulation (`simulate_time_series`), and
the early-warning metrics computed in `main` (lag-1 autocorrelation and
variance with the NaN-to-zero substitution).

The embedding uses exact rationals for the dynamics (the Python code uses
floats; the algorithmic content is its real-number meaning) and real
numbers for the Pearson-correlation metric, whose definition needs a
square root.  Random draws are modelled by an explicit sequence of
standard-normal sample values `z : ℕ → ℚ`; the code scales a standard
draw by the requested standard deviation, which is `max 0.0001 noise_level`.
-/

namespace Atlas

/-- The spacing used by `np.linspace a b n`: `(b - a) / (n - 1)` for
`n ≥ 2`; for `n ≤ 1` no spacing is used (the single value is `a`). -/
def lstep (a b : ℚ) (n : ℕ) : ℚ :=
  if n ≤ 1 then 0 else (b - a) / ((n : ℚ) - 1)

/-- `np.linspace a b n` with inclusive endpoints: the values
`a + i * (b - a) / (n - 1)` for `i = 0, …, n - 1` (numpy returns `[a]`
for `n = 1` and `[]` for `n = 0`). -/
def linspace (a b : ℚ) (n : ℕ) : List ℚ :=
  (List.range n).map (fun (i : ℕ) => a + (i : ℚ) * lstep a b n)

/-- One application of the logistic map, `r * x * (1 - x)`
(line `x = r_values * x * (1 - x)` of `get_bifurcation_data`, and the
`update` of `simulate_time_series`). -/
def logisticMapStep (r x : ℚ) : ℚ := r * x * (1 - x)

/-- The seed `1e-5` used by `x = 1e-5 * np.ones(steps)`. -/
def x0seed : ℚ := 1 / 100000

/-- The vectorized update `x = r_values * x * (1 - x)`: elementwise
logistic step across the parameter sweep. -/
def stepVec (rs xs : List ℚ) : List ℚ :=
  List.zipWith logisticMapStep rs xs

/-- The loop body of `get_bifurcation_data`: starting from the vector of
seeds, repeatedly apply the vectorized update; whenever the iteration
index `i` satisfies `i ≥ iterations - last`, append the data frame
zipping `r_values` with the current state vector.  The carried state is
the pair (current `x` vector, list of appended frames). -/
def genFold (rs : List ℚ) (iterations last : ℕ) :
    List ℚ × List (List (ℚ × ℚ)) :=
  (List.range iterations).foldl
    (fun st i =>
      let x2 := stepVec rs st.1
      (x2, if iterations - last ≤ i then st.2 ++ [rs.zip x2] else st.2))
    (List.replicate rs.length x0seed, [])

/-- `get_bifurcation_data(min_r, max_r, steps, iterations, last)`: build
the sweep with `np.linspace`, run the burn-in loop, and concatenate the
retained frames (`pd.concat`), yielding a flat list of (r, x) samples. -/
def get_bifurcation_data (min_r max_r : ℚ) (steps iterations last : ℕ) :
    List (ℚ × ℚ) :=
  ((genFold (linspace min_r max_r steps) iterations last).2).flatten

/-- Closed form for a single parameter's trajectory inside
`get_bifurcation_data`: `k` applications of the logistic map at growth
rate `r`, starting from the seed `1e-5`. -/
def iterLog (r : ℚ) : ℕ → ℚ
  | 0 => x0seed
  | k + 1 => logisticMapStep r (iterLog r k)

/-- Closed form for the state vector of `get_bifurcation_data` after `k`
iterations of the vectorized update. -/
def genLoop (rs : List ℚ) : ℕ → List ℚ
  | 0 => List.replicate rs.length x0seed
  | k + 1 => stepVec rs (genLoop rs k)

/-- The iteration indices whose frames are retained:
`i ∈ {0, …, iterations - 1}` with `i ≥ iterations - last`. -/
def retainedIdx (iterations last : ℕ) : List ℕ :=
  (List.range iterations).filter (fun i => decide (iterations - last ≤ i))

/-- Reference implementation following the spec's words (§9): loop one
growth-rate at a time to completion, retaining for each `r` the states
after applications `i + 1` for each retained iteration index `i`, and
concatenate per-parameter sample lists. -/
def get_bifurcation_data_perParam (min_r max_r : ℚ)
    (steps iterations last : ℕ) : List (ℚ × ℚ) :=
  ((linspace min_r max_r steps).map
    (fun r => (retainedIdx iterations last).map
      (fun i => (r, iterLog r (i + 1))))).flatten

/-- The standard deviation actually handed to `np.random.normal`:
`max(0.0001, noise_level)` (line 79 of `src/app.py`). -/
def noiseStd (noise_level : ℚ) : ℚ := max (1 / 10000) noise_level

/-- `np.clip(v, 0, 1)`: clamp a value into `[0, 1]`. -/
def clip01 (v : ℚ) : ℚ := min (max v 0) 1

/-- The trajectory recurrence of `simulate_time_series`: `x 0 = 0.5`;
`x (t+1) = clip(r * x t * (1 - x t) + noise, 0, 1)` where the Gaussian
draw at step `t + 1` is modelled as the standard-normal sample
`z (t + 1)` scaled by the requested standard deviation. -/
def trajAux (r noise_level : ℚ) (z : ℕ → ℚ) : ℕ → ℚ
  | 0 => 1 / 2
  | t + 1 =>
      clip01 (r * trajAux r noise_level z t * (1 - trajAux r noise_level z t)
        + noiseStd noise_level * z (t + 1))

/-- `simulate_time_series(r, noise_level, steps)` as a list of `steps`
values, given the sequence `z` of standard-normal draws. -/
def simulate_time_series (r noise_level : ℚ) (steps : ℕ) (z : ℕ → ℚ) :
    List ℚ :=
  (List.range steps).map (trajAux r noise_level z)

/-- Arithmetic mean of a list of reals (`0` for the empty list, via
division by zero). -/
noncomputable def meanList (l : List ℝ) : ℝ := l.sum / l.length

/-- Sum of squared deviations from the mean. -/
noncomputable def ssqList (l : List ℝ) : ℝ :=
  (l.map (fun x => (x - meanList l) ^ 2)).sum

/-- Sum of products of deviations from the respective means, over zipped
pairs. -/
noncomputable def covList (a b : List ℝ) : ℝ :=
  (List.zipWith (fun x y => (x - meanList a) * (y - meanList b)) a b).sum

/-- `pd.Series(xs).autocorr(lag=1)` followed by the NaN check of `main`:
the Pearson correlation of `xs` with itself shifted by one — i.e. of the
pair lists `xs.dropLast` and `xs.tail` — is NaN exactly when either sum
of squared deviations vanishes (constant slice, or fewer than two
pairs), and `main` replaces NaN by `0.0`. -/
noncomputable def autocorrLag1 (xs : List ℝ) : ℝ :=
  if ssqList xs.dropLast = 0 ∨ ssqList xs.tail = 0 then 0
  else covList xs.dropLast xs.tail /
    (Real.sqrt (ssqList xs.dropLast) * Real.sqrt (ssqList xs.tail))

/-- `pd.Series(xs).var()` (unbiased, divisor `n - 1`) followed by the
NaN check of `main`: for fewer than two samples pandas yields NaN
(`0/0`), which `main` replaces by `0.0`. -/
noncomputable def varUnbiased (xs : List ℝ) : ℝ :=
  if xs.length < 2 then 0 else ssqList xs / ((xs.length : ℝ) - 1)

/-- The metric pair computed by `main` from a trajectory, after the NaN
substitutions: (autocorrelation, variance). -/
noncomputable def compute_metrics (xs : List ℝ) : ℝ × ℝ :=
  (autocorrLag1 xs, varUnbiased xs)

/-- Pearson correlation coefficient of two paired lists, written from
the spec's formula: covariance over the product of the square roots of
the squared-deviation sums. -/
noncomputable def pearsonSpec (a b : List ℝ) : ℝ :=
  covList a b / (Real.sqrt (ssqList a) * Real.sqrt (ssqList b))

/-- The spec's autocorrelation: Pearson correlation between
`x[0..n-2]` and `x[1..n-1]`. -/
noncomputable def autocorrSpec (xs : List ℝ) : ℝ :=
  pearsonSpec (xs.take (xs.length - 1)) (xs.drop 1)

/-- The spec's variance: unbiased sample variance, divisor `n - 1`. -/
noncomputable def sampleVarSpec (xs : List ℝ) : ℝ :=
  ssqList xs / ((xs.length : ℝ) - 1)

theorem length_linspace (a b : ℚ) (n : ℕ) : (linspace a b n).length = n := by
  simp [linspace]

theorem linspace_getElem? (a b : ℚ) {i n : ℕ} (h : i < n) :
    (linspace a b n)[i]? = some (a + (i : ℚ) * lstep a b n) := by
  simp [linspace, List.getElem?_map, List.getElem?_range h]

theorem linspace_mem_bounds {a b x : ℚ} {n : ℕ} (hab : a ≤ b)
    (hx : x ∈ linspace a b n) : a ≤ x ∧ x ≤ b := by
  simp only [linspace, List.mem_map, List.mem_range] at hx
  obtain ⟨i, hi, rfl⟩ := hx
  by_cases hn : n ≤ 1
  · have : i = 0 := by omega
    subst this
    simpa [lstep, hn] using hab
  · have h2 : 2 ≤ n := by omega
    have hd0 : 0 ≤ lstep a b n := by
      have : (0 : ℚ) ≤ (n : ℚ) - 1 := by
        have : (2 : ℚ) ≤ (n : ℚ) := by exact_mod_cast h2
        linarith
      simp only [lstep, if_neg hn]
      apply div_nonneg (by linarith) this
    constructor
    · nlinarith [mul_nonneg (Nat.cast_nonneg (α := ℚ) i) hd0]
    · have hi' : (i : ℚ) ≤ (n : ℚ) - 1 := by
        have : (i : ℚ) + 1 ≤ (n : ℚ) := by exact_mod_cast hi
        linarith
      have hne : (n : ℚ) - 1 ≠ 0 := by
        have : (2 : ℚ) ≤ (n : ℚ) := by exact_mod_cast h2
        intro hc; linarith
      have hstep : lstep a b n = (b - a) / ((n : ℚ) - 1) := by
        simp [lstep, hn]
      have key : (i : ℚ) * lstep a b n ≤ b - a := by
        rw [hstep]
        rw [div_eq_mul_inv, ← mul_assoc]
        have hpos : 0 < ((n : ℚ) - 1)⁻¹ := by
          apply inv_pos.mpr
          have : (2 : ℚ) ≤ (n : ℚ) := by exact_mod_cast h2
          linarith
        calc (i : ℚ) * (b - a) * ((n : ℚ) - 1)⁻¹
            ≤ ((n : ℚ) - 1) * (b - a) * ((n : ℚ) - 1)⁻¹ := by
              apply mul_le_mul_of_nonneg_right _ (le_of_lt hpos)
              exact mul_le_mul_of_nonneg_right hi' (by linarith)
          _ = b - a := by field_simp
      linarith

theorem genLoop_eq_map (rs : List ℚ) (k : ℕ) :
    genLoop rs k = rs.map (fun r => iterLog r k) := by
  induction k with
  | zero =>
      simp [genLoop, iterLog, List.map_const']
  | succ k ih =>
      show stepVec rs (genLoop rs k) = _
      rw [ih]
      simp only [stepVec, List.zipWith_map_right, List.zipWith_same]
      rfl

theorem genFold_aux (rs : List ℚ) (it l : ℕ) : ∀ n : ℕ,
    (List.range n).foldl
      (fun st i =>
        let x2 := stepVec rs st.1
        (x2, if it - l ≤ i then st.2 ++ [rs.zip x2] else st.2))
      (List.replicate rs.length x0seed, []) =
    (genLoop rs n,
      ((List.range n).filter (fun i => decide (it - l ≤ i))).map
        (fun i => rs.zip (genLoop rs (i + 1)))) := by
  intro n
  induction n with
  | zero => simp [genLoop]
  | succ n ih =>
      rw [List.range_succ, List.foldl_append, ih, List.filter_append,
        List.map_append]
      by_cases h : it - l ≤ n
      · simp only [List.foldl_cons, List.foldl_nil, List.filter_cons,
          List.filter_nil, decide_eq_true_eq, if_pos h, List.map_cons,
          List.map_nil]
        rfl
      · simp only [List.foldl_cons, List.foldl_nil, List.filter_cons,
          List.filter_nil, decide_eq_true_eq, if_neg h, List.map_nil,
          List.append_nil]
        rfl

theorem genFold_eq (rs : List ℚ) (it l : ℕ) :
    genFold rs it l =
      (genLoop rs it,
        (retainedIdx it l).map (fun i => rs.zip (genLoop rs (i + 1)))) :=
  genFold_aux rs it l it

theorem zip_map_self {α β : Type} (l : List α) (f : α → β) :
    l.zip (l.map f) = l.map (fun x => (x, f x)) := by
  induction l with
  | nil => rfl
  | cons a t ih => simp [List.zip_cons_cons, ih]

theorem generate_eq (a b : ℚ) (s it l : ℕ) :
    get_bifurcation_data a b s it l =
      ((retainedIdx it l).map
        (fun i => (linspace a b s).map
          (fun r => (r, iterLog r (i + 1))))).flatten := by
  unfold get_bifurcation_data
  rw [genFold_eq]
  have h : ∀ i : ℕ,
      (linspace a b s).zip (genLoop (linspace a b s) (i + 1)) =
      (linspace a b s).map (fun r => (r, iterLog r (i + 1))) := by
    intro i
    rw [genLoop_eq_map, zip_map_self]
  simp only [h]

theorem mem_retainedIdx {i it l : ℕ} :
    i ∈ retainedIdx it l ↔ i < it ∧ it - l ≤ i := by
  simp [retainedIdx, List.mem_filter, List.mem_range]

theorem mem_generate_iff {p : ℚ × ℚ} {a b : ℚ} {s it l : ℕ} :
    p ∈ get_bifurcation_data a b s it l ↔
      ∃ i ∈ retainedIdx it l, ∃ r ∈ linspace a b s,
        p = (r, iterLog r (i + 1)) := by
  rw [generate_eq]
  simp only [List.mem_flatten, List.mem_map]
  constructor
  · rintro ⟨fr, ⟨i, hi, rfl⟩, hp⟩
    obtain ⟨r, hr, rfl⟩ := List.mem_map.mp hp
    exact ⟨i, hi, r, hr, rfl⟩
  · rintro ⟨i, hi, r, hr, rfl⟩
    exact ⟨(linspace a b s).map (fun r => (r, iterLog r (i + 1))),
      ⟨i, hi, rfl⟩, List.mem_map.mpr ⟨r, hr, rfl⟩⟩

theorem length_filter_range (n m : ℕ) :
    ((List.range n).filter (fun i => decide (m ≤ i))).length = n - m := by
  induction n with
  | zero => simp
  | succ n ih =>
      rw [List.range_succ, List.filter_append, List.length_append, ih]
      by_cases h : m ≤ n
      · simp only [List.filter_cons, List.filter_nil, decide_eq_true_eq,
          if_pos h, List.length_cons, List.length_nil]
        omega
      · simp only [List.filter_cons, List.filter_nil, decide_eq_true_eq,
          if_neg h, List.length_nil]
        omega

theorem length_retainedIdx (it l : ℕ) :
    (retainedIdx it l).length = it - (it - l) :=
  length_filter_range it (it - l)

theorem length_generate (a b : ℚ) (s it l : ℕ) :
    (get_bifurcation_data a b s it l).length = (it - (it - l)) * s := by
  rw [generate_eq, List.length_flatten, List.map_map]
  have h : (List.length ∘ fun i : ℕ =>
      (linspace a b s).map (fun r => (r, iterLog r (i + 1)))) =
      fun _ : ℕ => s := by
    funext i
    simp [length_linspace]
  rw [h, List.map_const', List.sum_replicate, length_retainedIdx,
    smul_eq_mul]

theorem trajAux_mem_unit (r nl : ℚ) (z : ℕ → ℚ) (t : ℕ) :
    0 ≤ trajAux r nl z t ∧ trajAux r nl z t ≤ 1 := by
  cases t with
  | zero => norm_num [trajAux]
  | succ t =>
      show 0 ≤ clip01 _ ∧ clip01 _ ≤ 1
      unfold clip01
      constructor
      · exact le_min (le_max_right _ _) zero_le_one
      · exact min_le_right _ _

theorem simulate_getElem? (r nl : ℚ) (z : ℕ → ℚ) {t steps : ℕ}
    (h : t < steps) :
    (simulate_time_series r nl steps z)[t]? = some (trajAux r nl z t) := by
  simp [simulate_time_series, List.getElem?_map, List.getElem?_range h]

theorem simulate_getD (r nl : ℚ) (z : ℕ → ℚ) {t steps : ℕ}
    (h : t < steps) :
    (simulate_time_series r nl steps z).getD t 0 = trajAux r nl z t := by
  simp [List.getD_eq_getElem?_getD, simulate_getElem? r nl z h]

theorem logistic_mem_unit {r x : ℚ} (hr0 : 0 ≤ r) (hr4 : r ≤ 4)
    (hx0 : 0 ≤ x) (hx1 : x ≤ 1) :
    0 ≤ logisticMapStep r x ∧ logisticMapStep r x ≤ 1 := by
  unfold logisticMapStep
  constructor
  · exact mul_nonneg (mul_nonneg hr0 hx0) (by linarith)
  · nlinarith [sq_nonneg (x - 1 / 2), sq_nonneg x]

theorem iterLog_mem_unit {r : ℚ} (hr0 : 0 ≤ r) (hr4 : r ≤ 4) (k : ℕ) :
    0 ≤ iterLog r k ∧ iterLog r k ≤ 1 := by
  induction k with
  | zero => norm_num [iterLog, x0seed]
  | succ k ih => exact logistic_mem_unit hr0 hr4 ih.1 ih.2

theorem generate_head_mem (a b : ℚ) (s it l : ℕ) (hs : 1 ≤ s)
    (hl : 1 ≤ l) (hil : l ≤ it) :
    ((a, iterLog a (it - l + 1)) : ℚ × ℚ) ∈
      get_bifurcation_data a b s it l := by
  apply mem_generate_iff.mpr
  refine ⟨it - l, mem_retainedIdx.mpr ⟨by omega, le_refl _⟩, a, ?_, rfl⟩
  simp only [linspace, List.mem_map, List.mem_range]
  exact ⟨0, by omega, by norm_num⟩

/-- Claim C1: for every valid input (`min_r < max_r`, `steps ≥ 1`,
`iterations ≥ last ≥ 1`), `get_bifurcation_data` returns exactly
`steps * last` samples, and every returned sample's r value lies in
`[min_r, max_r]` and is one of the `steps` sweep values. -/
theorem claim_C1 {min_r max_r : ℚ} {steps iterations last : ℕ}
    {p : ℚ × ℚ} (hab : min_r < max_r) (hs : 1 ≤ steps) (hl : 1 ≤ last)
    (hil : last ≤ iterations)
    (hp : p ∈ get_bifurcation_data min_r max_r steps iterations last) :
    (get_bifurcation_data min_r max_r steps iterations last).length =
      steps * last ∧
    (min_r ≤ p.1 ∧ p.1 ≤ max_r) ∧
    p.1 ∈ linspace min_r max_r steps := by
  obtain ⟨i, hi, r, hr, rfl⟩ := mem_generate_iff.mp hp
  refine ⟨?_, linspace_mem_bounds (le_of_lt hab) hr, hr⟩
  rw [length_generate, Nat.sub_sub_self hil, Nat.mul_comm]

/-- Witness for C1 at the end-to-end scenario
`generate(2.5, 4.0, steps=800, iterations=1000, last=100)`:
80000 samples, sample r values within the sweep. -/
theorem claim_C1_witness :
    (get_bifurcation_data (5/2) 4 800 1000 100).length = 800 * 100 ∧
    ((5/2 : ℚ) ≤ 5/2 ∧ (5/2 : ℚ) ≤ 4) ∧
    (5/2 : ℚ) ∈ linspace (5/2) 4 800 := by
  have hmem := generate_head_mem (5/2) 4 800 1000 100 (by norm_num)
    (by norm_num) (by norm_num)
  exact claim_C1 (by norm_num) (by norm_num) (by norm_num) (by norm_num)
    hmem

/-- Claim C2: for every `r`, every `noise_level`, every `steps ≥ 1` and
every sequence of noise draws, `simulate_time_series` returns exactly
`steps` values, the first is `0.5`, and every element lies in `[0, 1]`. -/
theorem claim_C2 (r nl : ℚ) (z : ℕ → ℚ) {steps : ℕ} {x : ℚ}
    (hs : 1 ≤ steps) (hx : x ∈ simulate_time_series r nl steps z) :
    (simulate_time_series r nl steps z).length = steps ∧
    (simulate_time_series r nl steps z)[0]? = some (1/2) ∧
    (0 ≤ x ∧ x ≤ 1) := by
  refine ⟨by simp [simulate_time_series], ?_, ?_⟩
  · rw [simulate_getElem? r nl z (by omega)]
    simp [trajAux]
  · simp only [simulate_time_series, List.mem_map, List.mem_range] at hx
    obtain ⟨t, _, rfl⟩ := hx
    exact trajAux_mem_unit r nl z t

/-- Witness for C2 at `r = 3`, `noise_level = 1/100`, `steps = 2`,
zero noise draws, checked at the trajectory element `1/2`. -/
theorem claim_C2_witness :
    (simulate_time_series 3 (1/100) 2 (fun _ => 0)).length = 2 ∧
    (simulate_time_series 3 (1/100) 2 (fun _ => 0))[0]? = some (1/2) ∧
    (0 ≤ (1/2 : ℚ) ∧ (1/2 : ℚ) ≤ 1) := by
  have hmem : (1/2 : ℚ) ∈ simulate_time_series 3 (1/100) 2 (fun _ => 0) := by
    simp only [simulate_time_series, List.mem_map, List.mem_range]
    exact ⟨0, by omega, rfl⟩
  exact claim_C2 3 (1/100) (fun _ => 0) (by omega) hmem

/-- Claim C4: for `1 ≤ t < steps` the trajectory satisfies
`x[t] = clamp(r * x[t-1] * (1 - x[t-1]) + noise_t, 0, 1)`, where the
Gaussian draw `noise_t` is the standard-normal sample scaled by the
standard deviation actually handed to the sampler, which equals
`max(noise_level, 1e-4)` and hence is never below `1e-4`. -/
theorem claim_C4 (r nl : ℚ) (z : ℕ → ℚ) {t steps : ℕ} (h1 : 1 ≤ t)
    (h2 : t < steps) :
    (simulate_time_series r nl steps z)[t]? =
      some (clip01 (r * (simulate_time_series r nl steps z).getD (t-1) 0 *
        (1 - (simulate_time_series r nl steps z).getD (t-1) 0) +
        noiseStd nl * z t)) ∧
    noiseStd nl = max nl (1/10000) ∧ (1/10000 : ℚ) ≤ noiseStd nl := by
  obtain ⟨u, rfl⟩ : ∃ u, t = u + 1 := ⟨t - 1, by omega⟩
  refine ⟨?_, max_comm (1/10000) nl, le_max_left _ _⟩
  rw [simulate_getElem? r nl z h2, simulate_getD r nl z (show u + 1 - 1 < steps by omega)]
  simp only [Nat.add_sub_cancel]
  rfl

/-- Witness for C4 at `r = 1`, `noise_level = 0`, `steps = 2`, `t = 1`,
zero noise draws. -/
theorem claim_C4_witness :
    (simulate_time_series 1 0 2 (fun _ => 0))[1]? =
      some (clip01 (1 * (simulate_time_series 1 0 2 (fun _ => 0)).getD 0 0 *
        (1 - (simulate_time_series 1 0 2 (fun _ => 0)).getD 0 0) +
        noiseStd 0 * 0)) ∧
    noiseStd 0 = max 0 (1/10000) ∧ (1/10000 : ℚ) ≤ noiseStd 0 :=
  claim_C4 1 0 (fun _ => 0) (by omega) (by omega)

/-- Counterexample for C5 as stated: at `steps = 1` (with
`min_r = 0 < 1 = max_r`, a valid input per the claim), the sweep built
by `np.linspace` is `[min_r]`, whose last element is `min_r`, not
`max_r`. -/
theorem claim_C5_counterexample :
    (0 : ℚ) < 1 ∧ 1 ≤ (1 : ℕ) ∧
    (linspace 0 1 1).getLast? ≠ some 1 := by
  refine ⟨by norm_num, le_refl 1, ?_⟩
  have h : linspace 0 1 1 = [0] := by
    simp [linspace, lstep, List.range_succ]
  rw [h]
  simp only [List.getLast?_singleton, ne_eq, Option.some.injEq]
  norm_num

/-- Claim C5 amended: for `steps ≥ 2` and `min_r < max_r` the sweep is
an evenly spaced, strictly increasing sequence of `steps` values with
first element `min_r` and last element `max_r`; for `steps = 1` the
sweep is the single value `[min_r]` (so its last element is `min_r`,
not `max_r`). -/
theorem claim_C5_amended {a b : ℚ} {n : ℕ} (hab : a < b) :
    (2 ≤ n →
      (linspace a b n).length = n ∧
      List.Pairwise (· < ·) (linspace a b n) ∧
      (linspace a b n).head? = some a ∧
      (linspace a b n).getLast? = some b) ∧
    linspace a b 1 = [a] := by
  constructor
  · intro h2
    have hn1 : ¬ n ≤ 1 := by omega
    have hcast : (2 : ℚ) ≤ (n : ℚ) := by exact_mod_cast h2
    have hne : (n : ℚ) - 1 ≠ 0 := by intro hc; linarith
    have hdpos : 0 < lstep a b n := by
      simp only [lstep, if_neg hn1]
      apply div_pos (by linarith) (by linarith)
    refine ⟨length_linspace a b n, ?_, ?_, ?_⟩
    · unfold linspace
      refine List.Pairwise.map _ ?_ (List.pairwise_lt_range n)
      intro i j hij
      have : (i : ℚ) < j := by exact_mod_cast hij
      have := mul_lt_mul_of_pos_right this hdpos
      linarith
    · rw [List.head?_eq_getElem?, linspace_getElem? a b (show 0 < n by omega)]
      norm_num
    · rw [List.getLast?_eq_getElem?, length_linspace,
        linspace_getElem? a b (show n - 1 < n by omega)]
      have hc : ((n - 1 : ℕ) : ℚ) = (n : ℚ) - 1 := by
        have h1 : 1 ≤ n := by omega
        push_cast [h1]
        ring
      simp only [lstep, if_neg hn1, hc, Option.some.injEq]
      field_simp
  · simp [linspace, lstep, List.range_succ]

/-- Witness for the amended C5 at `min_r = 0`, `max_r = 1`,
`steps = 2` and `steps = 1`. -/
theorem claim_C5_witness :
    ((linspace 0 1 2).length = 2 ∧
      List.Pairwise (· < ·) (linspace 0 1 2) ∧
      (linspace 0 1 2).head? = some 0 ∧
      (linspace 0 1 2).getLast? = some 1) ∧
    linspace 0 1 1 = [0] := by
  have h := claim_C5_amended (show (0:ℚ) < 1 by norm_num) (n := 2)
  exact ⟨h.1 (by omega), h.2⟩

/-- Claim C7: `simulate_time_series` is deterministic given the random
source — two runs with equal parameters and pointwise-equal noise draws
return identical trajectories. -/
theorem claim_C7 (r nl : ℚ) (steps : ℕ) (z1 z2 : ℕ → ℚ)
    (hz : ∀ t, z1 t = z2 t) :
    simulate_time_series r nl steps z1 = simulate_time_series r nl steps z2 := by
  have htraj : ∀ t, trajAux r nl z1 t = trajAux r nl z2 t := by
    intro t
    induction t with
    | zero => rfl
    | succ t ih =>
        show clip01 _ = clip01 _
        rw [ih, hz]
  unfold simulate_time_series
  exact congrArg (fun f => List.map f (List.range steps)) (funext htraj)

/-- Witness for C7: two syntactically different but pointwise-equal
noise sequences produce the same trajectory. -/
theorem claim_C7_witness :
    simulate_time_series 3 (1/100) 5 (fun _ => 0) =
      simulate_time_series 3 (1/100) 5 (fun t => 0 * (t : ℚ)) :=
  claim_C7 3 (1/100) 5 _ _ (fun t => by norm_num)

/-- Claim C8: the vectorized implementation (all parameters updated in
lockstep) yields the same set of (r, x) samples as the reference
implementation that loops one growth rate at a time to completion. -/
theorem claim_C8 (a b : ℚ) (s it l : ℕ) (p : ℚ × ℚ) :
    p ∈ get_bifurcation_data a b s it l ↔
      p ∈ get_bifurcation_data_perParam a b s it l := by
  rw [mem_generate_iff]
  unfold get_bifurcation_data_perParam
  simp only [List.mem_flatten, List.mem_map]
  constructor
  · rintro ⟨i, hi, r, hr, rfl⟩
    exact ⟨(retainedIdx it l).map (fun i => (r, iterLog r (i + 1))),
      ⟨r, hr, rfl⟩, List.mem_map.mpr ⟨i, hi, rfl⟩⟩
  · rintro ⟨fr, ⟨r, hr, rfl⟩, hp⟩
    obtain ⟨i, hi, rfl⟩ := List.mem_map.mp hp
    exact ⟨i, hi, r, hr, rfl⟩

/-- Claim C10: when the sweep range lies inside `[0, 4]`, every x value
of every sample returned by `get_bifurcation_data` lies in `[0, 1]`:
the seed `1e-5` is in `[0, 1]` and each logistic update preserves the
interval for `r ∈ [0, 4]`. -/
theorem claim_C10 {min_r max_r : ℚ} {steps iterations last : ℕ}
    {p : ℚ × ℚ} (h0 : 0 ≤ min_r) (hab : min_r ≤ max_r) (h4 : max_r ≤ 4)
    (hp : p ∈ get_bifurcation_data min_r max_r steps iterations last) :
    0 ≤ p.2 ∧ p.2 ≤ 1 := by
  obtain ⟨i, hi, r, hr, rfl⟩ := mem_generate_iff.mp hp
  have hb := linspace_mem_bounds hab hr
  exact iterLog_mem_unit (le_trans h0 hb.1) (le_trans hb.2 h4) (i + 1)

/-- Witness for C10 at the sweep `[0, 4]` with `steps = 1`,
`iterations = last = 1`. -/
theorem claim_C10_witness :
    0 ≤ iterLog 0 1 ∧ iterLog 0 1 ≤ 1 :=
  claim_C10 (by norm_num) (by norm_num) (by norm_num)
    (generate_head_mem 0 4 1 1 1 (by omega) (by omega) (by omega))

theorem iterLog_pos_le (k : ℕ) :
    0 < iterLog (5/2) k ∧ iterLog (5/2) k ≤ 5/8 := by
  induction k with
  | zero => norm_num [iterLog, x0seed]
  | succ k ih =>
      obtain ⟨h0, h1⟩ := ih
      show 0 < logisticMapStep (5/2) (iterLog (5/2) k) ∧
        logisticMapStep (5/2) (iterLog (5/2) k) ≤ 5/8
      unfold logisticMapStep
      constructor
      · have : (0:ℚ) < 1 - iterLog (5/2) k := by linarith
        positivity
      · nlinarith [sq_nonneg (iterLog (5/2) k - 1/2)]

theorem logistic_growth {x : ℚ} (h0 : 0 < x) (h : x ≤ 1/2) :
    5/4 * x ≤ logisticMapStep (5/2) x := by
  unfold logisticMapStep
  nlinarith

theorem iterLog_reaches_half : ∃ k, k ≤ 50 ∧ 1/2 ≤ iterLog (5/2) k := by
  by_contra hcon
  push_neg at hcon
  have grow : ∀ k, k ≤ 50 → (5/4 : ℚ)^k * x0seed ≤ iterLog (5/2) k := by
    intro k
    induction k with
    | zero => intro _; norm_num [iterLog]
    | succ k ih =>
        intro hk
        have hk50 : k ≤ 50 := by omega
        have hlt := hcon k hk50
        have hpos := (iterLog_pos_le k).1
        have hstep := logistic_growth hpos (le_of_lt hlt)
        have hiter := ih hk50
        show (5/4 : ℚ)^(k+1) * x0seed ≤ logisticMapStep (5/2) (iterLog (5/2) k)
        have hgeom : (5/4 : ℚ)^(k+1) * x0seed = 5/4 * ((5/4:ℚ)^k * x0seed) := by
          ring
        rw [hgeom]
        have := mul_le_mul_of_nonneg_left hiter (show (0:ℚ) ≤ 5/4 by norm_num)
        linarith
  have h50 := grow 50 (le_refl 50)
  have hlt50 := hcon 50 (le_refl 50)
  have hbig : (1/2 : ℚ) < (5/4 : ℚ)^50 * x0seed := by
    rw [show ((5:ℚ)/4)^50 = (5:ℚ)^50 / 4^50 from by rw [div_pow]]
    rw [x0seed]
    rw [div_mul_div_comm]
    rw [lt_div_iff₀ (by positivity)]
    norm_num
  linarith

theorem logistic_contraction {x : ℚ} (h : |x - 3/5| ≤ 1/10) :
    |logisticMapStep (5/2) x - 3/5| ≤ 3/4 * |x - 3/5| := by
  obtain ⟨hlo, hhi⟩ := abs_le.mp h
  unfold logisticMapStep
  rcases le_or_lt 0 (x - 3/5) with hd | hd
  · rw [abs_of_nonneg hd]
    have hneg : 5/2 * x * (1 - x) - 3/5 ≤ 0 := by nlinarith
    rw [abs_of_nonpos hneg]
    nlinarith [mul_le_mul_of_nonneg_left hhi hd]
  · rw [abs_of_neg hd]
    have hpos : 0 ≤ 5/2 * x * (1 - x) - 3/5 := by nlinarith
    rw [abs_of_nonneg hpos]
    nlinarith [mul_le_mul_of_nonneg_left hlo (le_of_lt (neg_pos.mpr hd))]

theorem iterLog_contract (k : ℕ) (hk : |iterLog (5/2) k - 3/5| ≤ 1/10) :
    ∀ m, |iterLog (5/2) (k + m) - 3/5| ≤ (3/4 : ℚ)^m * (1/10) := by
  intro m
  induction m with
  | zero => simpa using hk
  | succ m ih =>
      have hin : |iterLog (5/2) (k + m) - 3/5| ≤ 1/10 := by
        have hle1 : (3/4 : ℚ)^m ≤ 1 :=
          pow_le_one₀ (by norm_num) (by norm_num)
        nlinarith [abs_nonneg (iterLog (5/2) (k + m) - 3/5)]
      have hstep := logistic_contraction hin
      show |logisticMapStep (5/2) (iterLog (5/2) (k + m)) - 3/5| ≤ _
      calc |logisticMapStep (5/2) (iterLog (5/2) (k + m)) - 3/5|
          ≤ 3/4 * |iterLog (5/2) (k + m) - 3/5| := hstep
        _ ≤ 3/4 * ((3/4 : ℚ)^m * (1/10)) := by
            apply mul_le_mul_of_nonneg_left ih (by norm_num)
        _ = (3/4 : ℚ)^(m+1) * (1/10) := by ring

theorem iterLog_tail_close {n : ℕ} (hn : 68 ≤ n) :
    |iterLog (5/2) n - 3/5| ≤ 1/1000 := by
  obtain ⟨k, hk50, hkhalf⟩ := iterLog_reaches_half
  have hkle : iterLog (5/2) k ≤ 5/8 := (iterLog_pos_le k).2
  have hreg : |iterLog (5/2) k - 3/5| ≤ 1/10 :=
    abs_le.mpr ⟨by linarith, by linarith⟩
  obtain ⟨m, rfl⟩ : ∃ m, n = k + m := ⟨n - k, by omega⟩
  have hm17 : 17 ≤ m := by omega
  have hmono : (3/4 : ℚ)^m ≤ (3/4 : ℚ)^17 :=
    pow_le_pow_of_le_one (by norm_num) (by norm_num) hm17
  have h17 : (3/4 : ℚ)^17 * (1/10) ≤ 1/1000 := by norm_num
  have := iterLog_contract k hreg m
  nlinarith

/-- Claim C9: for the non-chaotic growth rate `r = 2.5`, every retained
x sample produced by `get_bifurcation_data(2.5, 4.0, 800, 1000, 100)`
for that growth rate lies within `1/1000` of the analytic fixed point
`(r - 1)/r = 3/5`. -/
theorem claim_C9 {p : ℚ × ℚ}
    (hp : p ∈ get_bifurcation_data (5/2) 4 800 1000 100)
    (hr : p.1 = 5/2) :
    |p.2 - 3/5| ≤ 1/1000 := by
  obtain ⟨i, hi, r, hrmem, rfl⟩ := mem_generate_iff.mp hp
  obtain ⟨hilt, hige⟩ := mem_retainedIdx.mp hi
  have hr' : r = 5/2 := hr
  subst hr'
  have h68 : 68 ≤ i + 1 := by omega
  exact iterLog_tail_close h68

/-- Witness for C9: the first retained sample for `r = 2.5`, namely
`(2.5, iterLog 2.5 901)`, is within `1/1000` of `3/5`. -/
theorem claim_C9_witness : |iterLog (5/2) 901 - 3/5| ≤ 1/1000 := by
  have h := claim_C9 (generate_head_mem (5/2) 4 800 1000 100 (by omega)
    (by omega) (by omega)) rfl
  have e : (1000 - 100 + 1 : ℕ) = 901 := by norm_num
  rw [e] at h
  exact h

theorem meanList_of_all_eq {l : List ℝ} {c : ℝ} (hne : l.length ≠ 0)
    (h : ∀ x ∈ l, x = c) : meanList l = c := by
  unfold meanList
  rw [List.sum_eq_card_nsmul l c h, nsmul_eq_mul]
  have hc : (l.length : ℝ) ≠ 0 := Nat.cast_ne_zero.mpr hne
  rw [mul_comm, mul_div_assoc, div_self hc, mul_one]

theorem ssq_of_all_eq {l : List ℝ} (h : ∀ x ∈ l, ∀ y ∈ l, x = y) :
    ssqList l = 0 := by
  rcases l with _ | ⟨a, t⟩
  · rfl
  · have hc : ∀ x ∈ a :: t, x = a := fun x hx => h x hx a (List.mem_cons_self a t)
    have hm : meanList (a :: t) = a := meanList_of_all_eq (by simp) hc
    unfold ssqList
    apply List.sum_eq_zero
    intro y hy
    obtain ⟨x, hx, rfl⟩ := List.mem_map.mp hy
    rw [hm, hc x hx]
    simp

/-- Claim C3: `compute_metrics` on an all-equal trajectory, or on a
trajectory of length < 2, returns exactly `(0.0, 0.0)` (the code's
NaN-to-zero substitution), never an undefined value. -/
theorem claim_C3 {xs : List ℝ}
    (h : (∀ x ∈ xs, ∀ y ∈ xs, x = y) ∨ xs.length < 2) :
    compute_metrics xs = (0, 0) := by
  have hdrop : ∀ x ∈ xs.dropLast, ∀ y ∈ xs.dropLast, x = y := by
    rcases h with h | h
    · intro x hx y hy
      exact h x (List.dropLast_subset xs hx) y (List.dropLast_subset xs hy)
    · rcases xs with _ | ⟨a, _ | ⟨b, t⟩⟩
      · intro x hx; simp at hx
      · intro x hx; simp at hx
      · exfalso; simp only [List.length_cons] at h; omega
  have hssq : ssqList xs.dropLast = 0 := ssq_of_all_eq hdrop
  have hac : autocorrLag1 xs = 0 := by
    unfold autocorrLag1
    rw [if_pos (Or.inl hssq)]
  have hv : varUnbiased xs = 0 := by
    by_cases hlen : xs.length < 2
    · unfold varUnbiased; rw [if_pos hlen]
    · rcases h with h | h
      · unfold varUnbiased
        rw [if_neg hlen, ssq_of_all_eq h, zero_div]
      · exact absurd h hlen
  unfold compute_metrics
  rw [hac, hv]

/-- Witness for C3 at the constant trajectory `[1, 1]`. -/
theorem claim_C3_witness : compute_metrics [(1 : ℝ), 1] = (0, 0) := by
  apply claim_C3
  left
  intro x hx y hy
  simp only [List.mem_cons, List.not_mem_nil, or_false] at hx hy
  rcases hx with rfl | rfl <;> rcases hy with h | h <;> rw [h]

/-- Claim C6: where the statistics are mathematically defined (at least
two samples, non-constant slices), the variance reported by
`compute_metrics` is the unbiased sample variance (divisor `n - 1`) and
the autocorrelation is the Pearson correlation between `x[0..n-2]` and
`x[1..n-1]`. -/
theorem claim_C6 {xs : List ℝ} (h1 : ssqList xs.dropLast ≠ 0)
    (h2 : ssqList xs.tail ≠ 0) (h3 : 2 ≤ xs.length) :
    (compute_metrics xs).1 = autocorrSpec xs ∧
    (compute_metrics xs).2 = sampleVarSpec xs := by
  constructor
  · show autocorrLag1 xs = autocorrSpec xs
    unfold autocorrLag1 autocorrSpec pearsonSpec
    rw [if_neg (not_or.mpr ⟨h1, h2⟩), ← List.dropLast_eq_take, List.drop_one]
  · show varUnbiased xs = sampleVarSpec xs
    unfold varUnbiased sampleVarSpec
    rw [if_neg (by omega)]

/-- Witness for C6 at the trajectory `[0, 1, 0]`. -/
theorem claim_C6_witness :
    (compute_metrics [(0 : ℝ), 1, 0]).1 = autocorrSpec [(0 : ℝ), 1, 0] ∧
    (compute_metrics [(0 : ℝ), 1, 0]).2 = sampleVarSpec [(0 : ℝ), 1, 0] := by
  apply claim_C6
  · show ssqList [(0 : ℝ), 1] ≠ 0
    norm_num [ssqList, meanList]
  · show ssqList [(1 : ℝ), 0] ≠ 0
    norm_num [ssqList, meanList]
  · norm_num

end Atlas
